import Mathlib

/-!
Verification of the minimal task/actor execution runtime specified for the
`tutorial` repository (remote tasks, actors with mailboxes, Futures, and
order-of-completion waiting), together with the concrete notebook code that
exercises it (the `Foo` counter actor, the `LoggingActor`, and the
process-in-order-of-completion `wait` loop).

The runtime itself is not part of the repository sources (the notebooks call
into a third-party framework), so the runtime operations are modelled from the
specification; the notebook-level functions are translated from the notebook
cells.
-/

namespace Tutorial

/-- Modelled from the spec: the state of a Future — `Pending`, `Resolved`
with a stored value, or `Failed` with a captured error (spec §3, §4.1). -/
inductive FState (α ε : Type) where
  | pending : FState α ε
  | resolved (v : α) : FState α ε
  | failed (e : ε) : FState α ε
deriving DecidableEq, Repr

/-- Future identifiers are opaque unique tokens (spec §3). -/
abbrev FutureId := Nat

/-- Modelled from the spec: the CompletionTable, a mapping from Future
identifier to its current state (spec §3). -/
abbrev Table (α ε : Type) := FutureId → FState α ε

/-- A Future is terminal when it is Resolved or Failed (spec §7, §8). -/
def FState.isTerminal {α ε : Type} : FState α ε → Bool
  | .pending => false
  | .resolved _ => true
  | .failed _ => true

/-- Modelled from the spec (§4.3 Completion Waiter): given the predicate
telling which Futures have completed at the moment `wait` wakes up, split the
ordered input sequence into `ready` (the first `numReturns` completed entries,
in the input's original relative order) and `remaining` (the order-preserving
complement). This is the pure core of `wait`; the blocking behaviour is
captured by the choice of the `resolved` predicate. -/
def waitSplit {α : Type} (resolved : α → Bool) : List α → Nat → List α × List α
  | [], _ => ([], [])
  | f :: rest, 0 => ([], f :: rest)
  | f :: rest, n + 1 =>
    if resolved f then
      let p := waitSplit resolved rest n
      (f :: p.1, p.2)
    else
      let p := waitSplit resolved rest (n + 1)
      (p.1, f :: p.2)

/-- The `ready` list returned by `wait` is the input restricted to the
resolved subset, in input order, truncated to `numReturns` entries. -/
theorem waitSplit_fst {α : Type} (resolved : α → Bool) :
    ∀ (fs : List α) (n : Nat),
      (waitSplit resolved fs n).1 = (fs.filter resolved).take n := by
  intro fs
  induction fs with
  | nil => intro n; simp [waitSplit]
  | cons f rest ih =>
    intro n
    cases n with
    | zero => simp [waitSplit]
    | succ m =>
      by_cases h : resolved f
      · simp [waitSplit, h, ih]
      · simp [waitSplit, h, ih]

/-- Every element of the `ready` list came from the input sequence. -/
theorem waitSplit_fst_subset {α : Type} (resolved : α → Bool)
    (fs : List α) (n : Nat) :
    ∀ x ∈ (waitSplit resolved fs n).1, x ∈ fs := by
  intro x hx
  rw [waitSplit_fst] at hx
  exact (fs.filter_sublist).subset ((List.take_sublist _ _).subset hx)

/-- Every element of the `remaining` list came from the input sequence. -/
theorem waitSplit_snd_subset {α : Type} (resolved : α → Bool) :
    ∀ (fs : List α) (n : Nat), ∀ x ∈ (waitSplit resolved fs n).2, x ∈ fs := by
  intro fs
  induction fs with
  | nil => intro n x hx; simp [waitSplit] at hx
  | cons f rest ih =>
    intro n x hx
    cases n with
    | zero =>
      simp [waitSplit] at hx
      simpa using hx
    | succ m =>
      by_cases h : resolved f
      · simp [waitSplit, h] at hx
        exact List.mem_cons_of_mem f (ih m x hx)
      · simp [waitSplit, h] at hx
        rcases hx with hx | hx
        · simp [hx]
        · exact List.mem_cons_of_mem f (ih (m + 1) x hx)

/-- `ready` and `remaining` together are a permutation of the input. -/
theorem waitSplit_perm {α : Type} (resolved : α → Bool) :
    ∀ (fs : List α) (n : Nat),
      ((waitSplit resolved fs n).1 ++ (waitSplit resolved fs n).2).Perm fs := by
  intro fs
  induction fs with
  | nil => intro n; simp [waitSplit]
  | cons f rest ih =>
    intro n
    cases n with
    | zero => simp [waitSplit]
    | succ m =>
      by_cases h : resolved f
      · simpa [waitSplit, h] using (ih m).cons f
      · simpa [waitSplit, h] using (List.perm_middle.trans ((ih (m + 1)).cons f))

/-- The lengths of `ready` and `remaining` sum to the input length. -/
theorem waitSplit_length {α : Type} (resolved : α → Bool)
    (fs : List α) (n : Nat) :
    (waitSplit resolved fs n).1.length + (waitSplit resolved fs n).2.length
      = fs.length := by
  have h := (waitSplit_perm resolved fs n).length_eq
  simpa using h

/-- When the input has no duplicate Futures (identifiers are unique per
creation, spec §3), `remaining` is exactly the input filtered to the entries
not selected into `ready`: the order-preserving complement. -/
theorem waitSplit_snd {α : Type} [DecidableEq α] (resolved : α → Bool) :
    ∀ (fs : List α) (n : Nat), fs.Nodup →
      (waitSplit resolved fs n).2
        = fs.filter (fun x => decide (x ∉ (waitSplit resolved fs n).1)) := by
  intro fs
  induction fs with
  | nil => intro n _; simp [waitSplit]
  | cons f rest ih =>
    intro n hnd
    have hfr : f ∉ rest := (List.nodup_cons.mp hnd).1
    have hndr : rest.Nodup := (List.nodup_cons.mp hnd).2
    cases n with
    | zero =>
      simp [waitSplit]
    | succ m =>
      by_cases h : resolved f
      · have hrec := ih m hndr
        simp only [waitSplit, h, if_pos]
        have hmem : ∀ x ∈ rest,
            (decide (x ∉ f :: (waitSplit resolved rest m).1))
              = (decide (x ∉ (waitSplit resolved rest m).1)) := by
          intro x hx
          have hxf : x ≠ f := fun hxe => hfr (hxe ▸ hx)
          simp [List.mem_cons, hxf]
        calc (waitSplit resolved rest m).2
            = rest.filter (fun x => decide (x ∉ (waitSplit resolved rest m).1)) :=
              hrec
          _ = rest.filter (fun x => decide (x ∉ f :: (waitSplit resolved rest m).1)) :=
              (List.filter_congr hmem).symm
          _ = (f :: rest).filter
                (fun x => decide (x ∉ f :: (waitSplit resolved rest m).1)) := by
              simp
      · have hrec := ih (m + 1) hndr
        simp only [waitSplit, h, if_neg, Bool.false_eq_true, not_false_iff]
        have hfnot : f ∉ (waitSplit resolved rest (m + 1)).1 := by
          intro hmem
          exact hfr (waitSplit_fst_subset resolved rest (m + 1) f hmem)
        simp [List.filter_cons, hfnot, hrec]

/-- C1: for every ordered input sequence of Futures (unique identifiers) and
every `num_returns`, the pair `(ready, remaining)` returned by `wait`
satisfies: `ready` is the subsequence of the input restricted to resolved
Futures in the input's original relative order (not completion order), sized
exactly `num_returns` when enough have completed, and `remaining` is the
order-preserving complement of `ready` within the input sequence. -/
theorem wait_ready_remaining_ordering {α : Type} [DecidableEq α]
    (resolved : α → Bool) (fs : List α) (n : Nat) (hnd : fs.Nodup) :
    (waitSplit resolved fs n).1 = (fs.filter resolved).take n ∧
    (n ≤ (fs.filter resolved).length → (waitSplit resolved fs n).1.length = n) ∧
    (waitSplit resolved fs n).2
      = fs.filter (fun x => decide (x ∉ (waitSplit resolved fs n).1)) := by
  refine ⟨waitSplit_fst resolved fs n, ?_, waitSplit_snd resolved fs n hnd⟩
  intro hle
  rw [waitSplit_fst resolved fs n, List.length_take]
  exact Nat.min_eq_left hle

/-- Concrete instance of `wait_ready_remaining_ordering`: five Futures of
which the even-numbered ones are resolved, `num_returns = 2`. -/
theorem wait_ready_remaining_ordering_witness :
    (waitSplit (fun x : Nat => x % 2 == 0) [0, 1, 2, 3, 4] 2).1
        = (([0, 1, 2, 3, 4] : List Nat).filter (fun x => x % 2 == 0)).take 2 ∧
    (2 ≤ (([0, 1, 2, 3, 4] : List Nat).filter (fun x => x % 2 == 0)).length →
      (waitSplit (fun x : Nat => x % 2 == 0) [0, 1, 2, 3, 4] 2).1.length = 2) ∧
    (waitSplit (fun x : Nat => x % 2 == 0) [0, 1, 2, 3, 4] 2).2
      = ([0, 1, 2, 3, 4] : List Nat).filter
          (fun x => decide (x ∉ (waitSplit (fun x : Nat => x % 2 == 0)
              [0, 1, 2, 3, 4] 2).1)) :=
  wait_ready_remaining_ordering (fun x : Nat => x % 2 == 0) [0, 1, 2, 3, 4] 2
    (by decide)

/-- C8: when `num_returns` is at least the input length and every input
Future is terminal, `wait` clamps `num_returns` to the length, returns all
inputs in `ready` with an empty `remaining`, and its blocking condition
(`min num_returns length` inputs completed) is met, so it does not hang. -/
theorem wait_clamps_num_returns {α : Type} (resolved : α → Bool)
    (fs : List α) (n : Nat)
    (hall : ∀ x ∈ fs, resolved x = true) (hn : fs.length ≤ n) :
    waitSplit resolved fs n = (fs, []) ∧
    min n fs.length ≤ (fs.filter resolved).length := by
  have hfilter : fs.filter resolved = fs := List.filter_eq_self.mpr (by
    intro a ha; exact hall a ha)
  have h1 : (waitSplit resolved fs n).1 = fs := by
    rw [waitSplit_fst resolved fs n, hfilter]
    exact List.take_of_length_le hn
  have hlen := waitSplit_length resolved fs n
  rw [h1] at hlen
  have h2len : (waitSplit resolved fs n).2.length = 0 := by omega
  have h2 : (waitSplit resolved fs n).2 = [] :=
    List.eq_nil_of_length_eq_zero h2len
  refine ⟨?_, ?_⟩
  · rw [Prod.ext_iff]
    exact ⟨h1, h2⟩
  · rw [hfilter]
    exact Nat.min_le_right n fs.length

/-- Concrete instance of `wait_clamps_num_returns`: three terminal Futures,
`num_returns = 5`. -/
theorem wait_clamps_num_returns_witness :
    waitSplit (fun _ : Nat => true) [5, 6, 7] 5 = ([5, 6, 7], []) ∧
    min 5 ([5, 6, 7] : List Nat).length
      ≤ (([5, 6, 7] : List Nat).filter (fun _ => true)).length :=
  wait_clamps_num_returns (fun _ : Nat => true) [5, 6, 7] 5 (by decide)
    (by decide)

/-- Modelled from the spec (§4.3, Glossary "Completion order"): `time f` is
the real-time instant at which Future `f` reaches a terminal state. With
`num_returns = 1`, `wait` blocks until the earliest instant at which some
input Future has completed; `firstWake` is that instant (minimum completion
timestamp over the input sequence). -/
def firstWake {α : Type} (time : α → Nat) : List α → Nat
  | [] => 0
  | [f] => time f
  | f :: g :: gs => min (time f) (firstWake time (g :: gs))

/-- The wake instant is no later than any input's completion timestamp. -/
theorem firstWake_le {α : Type} (time : α → Nat) :
    ∀ (fs : List α), ∀ x ∈ fs, firstWake time fs ≤ time x := by
  intro fs
  induction fs with
  | nil => intro x hx; simp at hx
  | cons f rest ih =>
    intro x hx
    cases rest with
    | nil =>
      have hxf : x = f := by simpa using hx
      simp [firstWake, hxf]
    | cons g gs =>
      rcases List.mem_cons.mp hx with h | h
      · rw [h]
        simp [firstWake]
      · calc firstWake time (f :: g :: gs) ≤ firstWake time (g :: gs) := by
              simp [firstWake]
          _ ≤ time x := ih x h

/-- Some input Future has completed by the wake instant (the minimum is
attained), so `wait` with `num_returns = 1` has a ready element. -/
theorem firstWake_attained {α : Type} (time : α → Nat) :
    ∀ (fs : List α), fs ≠ [] → ∃ x ∈ fs, time x ≤ firstWake time fs := by
  intro fs
  induction fs with
  | nil => intro h; exact absurd rfl h
  | cons f rest ih =>
    intro _
    cases rest with
    | nil => exact ⟨f, List.mem_singleton_self f, by simp [firstWake]⟩
    | cons g gs =>
      rcases Nat.le_total (time f) (firstWake time (g :: gs)) with h | h
      · refine ⟨f, List.mem_cons_self f _, ?_⟩
        simp [firstWake, Nat.min_eq_left h]
      · obtain ⟨x, hx, hxle⟩ := ih (by simp)
        refine ⟨x, List.mem_cons_of_mem f hx, ?_⟩
        rw [show firstWake time (f :: g :: gs)
              = min (time f) (firstWake time (g :: gs)) from rfl,
            Nat.min_eq_right h]
        exact hxle

/-- Translated from the source loop (part_000, "Process Tasks in Order of
Completion"): while Futures remain, call `wait(remaining, num_returns=1)` and
append the single ready element. Each `wait` wakes at the first instant a
remaining Future completes; the fuel (initially the input length) bounds the
iteration count, and each iteration consumes one Future. -/
def processLoop {α : Type} (time : α → Nat) : Nat → List α → List α
  | 0, _ => []
  | _ + 1, [] => []
  | fuel + 1, f :: rest =>
    let p := waitSplit (fun g => decide (time g ≤ firstWake time (f :: rest)))
      (f :: rest) 1
    p.1 ++ processLoop time fuel p.2

/-- The repeated-`wait` loop of the source exercise, run to completion. -/
def processInCompletionOrder {α : Type} (time : α → Nat) (fs : List α) :
    List α :=
  processLoop time fs.length fs

/-- Every element the loop emits came from the input list. -/
theorem processLoop_subset {α : Type} (time : α → Nat) :
    ∀ (fuel : Nat) (fs : List α), ∀ x ∈ processLoop time fuel fs, x ∈ fs := by
  intro fuel
  induction fuel with
  | zero => intro fs x hx; simp [processLoop] at hx
  | succ n ih =>
    intro fs x hx
    cases fs with
    | nil => simp [processLoop] at hx
    | cons f rest =>
      simp only [processLoop, List.mem_append] at hx
      rcases hx with hx | hx
      · exact waitSplit_fst_subset _ _ _ x hx
      · exact waitSplit_snd_subset _ _ _ x (ih _ x hx)

/-- With fuel at least the input length, the loop emits a permutation of the
input: every Future is processed exactly once. -/
theorem processLoop_perm {α : Type} (time : α → Nat) :
    ∀ (fuel : Nat) (fs : List α), fs.length ≤ fuel →
      (processLoop time fuel fs).Perm fs := by
  intro fuel
  induction fuel with
  | zero =>
    intro fs hfs
    have : fs = [] := List.eq_nil_of_length_eq_zero (Nat.le_zero.mp hfs)
    simp [this, processLoop]
  | succ n ih =>
    intro fs hfs
    cases fs with
    | nil => simp [processLoop]
    | cons f rest =>
      obtain ⟨c, hc, hcle⟩ := firstWake_attained time (f :: rest) (by simp)
      have hcfil : c ∈ (f :: rest).filter
          (fun g => decide (time g ≤ firstWake time (f :: rest))) :=
        List.mem_filter.mpr ⟨hc, by simpa using hcle⟩
      have hfpos : 1 ≤ ((f :: rest).filter
          (fun g => decide (time g ≤ firstWake time (f :: rest)))).length :=
        List.length_pos.mpr (List.ne_nil_of_mem hcfil)
      have hlen1 : (waitSplit
          (fun g => decide (time g ≤ firstWake time (f :: rest)))
          (f :: rest) 1).1.length = 1 := by
        rw [waitSplit_fst, List.length_take]
        exact Nat.min_eq_left hfpos
      have hlen2 : (waitSplit
          (fun g => decide (time g ≤ firstWake time (f :: rest)))
          (f :: rest) 1).2.length ≤ n := by
        have := waitSplit_length
          (fun g => decide (time g ≤ firstWake time (f :: rest))) (f :: rest) 1
        simp only [List.length_cons] at this hfs
        omega
      show List.Perm
        ((waitSplit (fun g => decide (time g ≤ firstWake time (f :: rest)))
            (f :: rest) 1).1
          ++ processLoop time n
            (waitSplit (fun g => decide (time g ≤ firstWake time (f :: rest)))
              (f :: rest) 1).2)
        (f :: rest)
      exact ((ih _ hlen2).append_left _).trans (waitSplit_perm _ _ _)

/-- The loop's output is ordered by completion timestamp: each iteration's
single ready element completes no later than everything still remaining. -/
theorem processLoop_pairwise {α : Type} (time : α → Nat) :
    ∀ (fuel : Nat) (fs : List α),
      (processLoop time fuel fs).Pairwise (fun a b => time a ≤ time b) := by
  intro fuel
  induction fuel with
  | zero => intro fs; simp [processLoop]
  | succ n ih =>
    intro fs
    cases fs with
    | nil => simp [processLoop]
    | cons f rest =>
      have hfst := waitSplit_fst
        (fun g => decide (time g ≤ firstWake time (f :: rest))) (f :: rest) 1
      cases hfil : (f :: rest).filter
          (fun g => decide (time g ≤ firstWake time (f :: rest))) with
      | nil =>
        have h1 : (waitSplit
            (fun g => decide (time g ≤ firstWake time (f :: rest)))
            (f :: rest) 1).1 = [] := by rw [hfst, hfil]; rfl
        show ((waitSplit (fun g => decide (time g ≤ firstWake time (f :: rest)))
            (f :: rest) 1).1 ++ _).Pairwise _
        rw [h1]
        simpa using ih _
      | cons c cs =>
        have hcmem : c ∈ (f :: rest).filter
            (fun g => decide (time g ≤ firstWake time (f :: rest))) := by
          rw [hfil]; exact List.mem_cons_self c cs
        have hcprop := List.mem_filter.mp hcmem
        have hcle : time c ≤ firstWake time (f :: rest) := by
          simpa using hcprop.2
        have h1 : (waitSplit
            (fun g => decide (time g ≤ firstWake time (f :: rest)))
            (f :: rest) 1).1 = [c] := by rw [hfst, hfil]; rfl
        show ((waitSplit (fun g => decide (time g ≤ firstWake time (f :: rest)))
            (f :: rest) 1).1 ++ _).Pairwise _
        rw [h1]
        refine List.Pairwise.cons ?_ (ih _)
        intro y hy
        have hyfs : y ∈ f :: rest :=
          waitSplit_snd_subset _ _ _ y (processLoop_subset time n _ y hy)
        exact Nat.le_trans hcle (firstWake_le time (f :: rest) y hyfs)

/-- C3: calling `wait` with `num_returns = 1` repeatedly, each time on the
`remaining` list returned by the previous call, yields the ready elements in
non-decreasing completion-timestamp order — each call's single ready element
is a next-to-complete input Future, so the concatenated output is fully
ordered by completion time and is a permutation of the input. -/
theorem repeated_wait_completion_order {α : Type} (time : α → Nat)
    (fs : List α) :
    (processInCompletionOrder time fs).Pairwise (fun a b => time a ≤ time b) ∧
    (processInCompletionOrder time fs).Perm fs :=
  ⟨processLoop_pairwise time fs.length fs,
   processLoop_perm time fs.length fs (Nat.le_refl _)⟩

/-- Translated from the notebook source (colab04-05, `Foo`): `increment`
sleeps half a second, increments `self.counter` and returns it. The sleep is
real time and does not affect the returned value; the actor state is the
counter. -/
def Foo.increment (counter : Nat) : Nat × Nat := (counter + 1, counter + 1)

/-- Translated from the notebook source (colab04-05, `Foo`): `reset` sets the
counter back to 0. -/
def Foo.reset (_counter : Nat) : Nat := 0

/-- Modelled from the spec (§4.2 Actor Runtime): executing an actor's mailbox
strictly in submission order, one method at a time, threading the actor's
private state; returns the final state and the list of method results in
submission order. -/
def runMailbox {σ α : Type} (init : σ) : List (σ → σ × α) → σ × List α
  | [] => (init, [])
  | m :: ms =>
    let r := runMailbox (m init).1 ms
    (r.1, (m init).2 :: r.2)

/-- Modelled from the spec (§4.2, §5): two actors, each with its own private
state, an ordered mailbox of pending method calls, and the results produced
so far. Distinct actors run concurrently with each other; each actor's own
calls are serialized. -/
structure TwoActors (σ₁ σ₂ α : Type) where
  s1 : σ₁
  mb1 : List (σ₁ → σ₁ × α)
  out1 : List α
  s2 : σ₂
  mb2 : List (σ₂ → σ₂ × α)
  out2 : List α

/-- Modelled from the spec: one scheduling step. The chosen actor dequeues
and executes the next entry of its mailbox atomically (no two method bodies
of one actor run simultaneously); the other actor is untouched. -/
def stepActor {σ₁ σ₂ α : Type} (sys : TwoActors σ₁ σ₂ α) :
    Bool → TwoActors σ₁ σ₂ α
  | true =>
    match sys.mb1 with
    | [] => sys
    | m :: ms =>
      { sys with s1 := (m sys.s1).1, mb1 := ms,
                 out1 := sys.out1 ++ [(m sys.s1).2] }
  | false =>
    match sys.mb2 with
    | [] => sys
    | m :: ms =>
      { sys with s2 := (m sys.s2).1, mb2 := ms,
                 out2 := sys.out2 ++ [(m sys.s2).2] }

/-- Modelled from the spec: run an arbitrary interleaving of the two actors'
executions, given by a schedule of which actor steps next. -/
def runSched {σ₁ σ₂ α : Type} :
    TwoActors σ₁ σ₂ α → List Bool → TwoActors σ₁ σ₂ α
  | sys, [] => sys
  | sys, b :: rest => runSched (stepActor sys b) rest

/-- Number of scheduling steps given to the first actor. -/
def countTrue : List Bool → Nat
  | [] => 0
  | b :: rest => countTrue rest + (if b then 1 else 0)

/-- Number of scheduling steps given to the second actor. -/
def countFalse : List Bool → Nat
  | [] => 0
  | b :: rest => countFalse rest + (if b then 0 else 1)

/-- Under every interleaving, the first actor's results are exactly a prefix
of its sequential mailbox execution: methods run strictly in submission
order, one completing before the next starts. -/
theorem runSched_out1 {σ₁ σ₂ α : Type} :
    ∀ (sched : List Bool) (sys : TwoActors σ₁ σ₂ α),
      (runSched sys sched).out1
        = sys.out1 ++ (runMailbox sys.s1 sys.mb1).2.take (countTrue sched) := by
  intro sched
  induction sched with
  | nil => intro sys; simp [runSched, countTrue]
  | cons b rest ih =>
    intro sys
    cases b with
    | true =>
      cases hmb : sys.mb1 with
      | nil =>
        have hstep : stepActor sys true = sys := by simp [stepActor, hmb]
        show (runSched (stepActor sys true) rest).out1 = _
        rw [hstep, ih sys, hmb]
        simp [runMailbox, countTrue]
      | cons m ms =>
        have hstep : stepActor sys true
            = { sys with s1 := (m sys.s1).1, mb1 := ms,
                         out1 := sys.out1 ++ [(m sys.s1).2] } := by
          simp [stepActor, hmb]
        show (runSched (stepActor sys true) rest).out1 = _
        rw [hstep, ih]
        simp only [hmb, runMailbox, countTrue, if_pos]
        rw [List.take_succ_cons, List.append_assoc]
        rfl
    | false =>
      cases hmb : sys.mb2 with
      | nil =>
        have hstep : stepActor sys false = sys := by simp [stepActor, hmb]
        show (runSched (stepActor sys false) rest).out1 = _
        rw [hstep, ih sys]
        simp [countTrue]
      | cons m ms =>
        have hstep : stepActor sys false
            = { sys with s2 := (m sys.s2).1, mb2 := ms,
                         out2 := sys.out2 ++ [(m sys.s2).2] } := by
          simp [stepActor, hmb]
        show (runSched (stepActor sys false) rest).out1 = _
        rw [hstep, ih]
        simp [countTrue]

/-- Under every interleaving, the second actor's results are exactly a prefix
of its sequential mailbox execution. -/
theorem runSched_out2 {σ₁ σ₂ α : Type} :
    ∀ (sched : List Bool) (sys : TwoActors σ₁ σ₂ α),
      (runSched sys sched).out2
        = sys.out2 ++ (runMailbox sys.s2 sys.mb2).2.take (countFalse sched) := by
  intro sched
  induction sched with
  | nil => intro sys; simp [runSched, countFalse]
  | cons b rest ih =>
    intro sys
    cases b with
    | false =>
      cases hmb : sys.mb2 with
      | nil =>
        have hstep : stepActor sys false = sys := by simp [stepActor, hmb]
        show (runSched (stepActor sys false) rest).out2 = _
        rw [hstep, ih sys, hmb]
        simp [runMailbox, countFalse]
      | cons m ms =>
        have hstep : stepActor sys false
            = { sys with s2 := (m sys.s2).1, mb2 := ms,
                         out2 := sys.out2 ++ [(m sys.s2).2] } := by
          simp [stepActor, hmb]
        show (runSched (stepActor sys false) rest).out2 = _
        rw [hstep, ih]
        simp only [hmb, runMailbox, countFalse]
        rw [show (countFalse rest + if false = true then 0 else 1)
              = countFalse rest + 1 from rfl]
        rw [List.take_succ_cons, List.append_assoc]
        rfl
    | true =>
      cases hmb : sys.mb1 with
      | nil =>
        have hstep : stepActor sys true = sys := by simp [stepActor, hmb]
        show (runSched (stepActor sys true) rest).out2 = _
        rw [hstep, ih sys]
        simp [countFalse]
      | cons m ms =>
        have hstep : stepActor sys true
            = { sys with s1 := (m sys.s1).1, mb1 := ms,
                         out1 := sys.out1 ++ [(m sys.s1).2] } := by
          simp [stepActor, hmb]
        show (runSched (stepActor sys true) rest).out2 = _
        rw [hstep, ih]
        simp [countFalse]

/-- The notebook gathers results alternately: one from the first actor, then
one from the second, in submission order of the alternating calls. -/
def interleave {α : Type} : List α → List α → List α
  | [], ys => ys
  | x :: xs, [] => x :: xs
  | x :: xs, y :: ys => x :: y :: interleave xs ys

/-- C2: for every actor, method-call Tasks enqueued to its mailbox are
executed strictly in submission order, one at a time, under every
interleaving of the two actors (the results are always a prefix of the
sequential mailbox execution, so no two method bodies of one actor overlap);
in particular two counter-increment actors each called 5 times alternately
yield results `[1, 1, 2, 2, 3, 3, 4, 4, 5, 5]` once both mailboxes have been
given enough steps. -/
theorem actor_methods_serialized (sched : List Bool) (c₁ c₂ : Nat)
    (h1 : 5 ≤ countTrue sched) (h2 : 5 ≤ countFalse sched) :
    (∀ (σ₁ σ₂ β : Type) (sys : TwoActors σ₁ σ₂ β) (sch : List Bool),
        (runSched sys sch).out1
          = sys.out1 ++ (runMailbox sys.s1 sys.mb1).2.take (countTrue sch)) ∧
    (runSched
        (TwoActors.mk (Foo.reset c₁) (List.replicate 5 Foo.increment) []
          (Foo.reset c₂) (List.replicate 5 Foo.increment) []) sched).out1
      = [1, 2, 3, 4, 5] ∧
    (runSched
        (TwoActors.mk (Foo.reset c₁) (List.replicate 5 Foo.increment) []
          (Foo.reset c₂) (List.replicate 5 Foo.increment) []) sched).out2
      = [1, 2, 3, 4, 5] ∧
    interleave
        (runSched
          (TwoActors.mk (Foo.reset c₁) (List.replicate 5 Foo.increment) []
            (Foo.reset c₂) (List.replicate 5 Foo.increment) []) sched).out1
        (runSched
          (TwoActors.mk (Foo.reset c₁) (List.replicate 5 Foo.increment) []
            (Foo.reset c₂) (List.replicate 5 Foo.increment) []) sched).out2
      = [1, 1, 2, 2, 3, 3, 4, 4, 5, 5] := by
  have hseq : ∀ c : Nat,
      (runMailbox (Foo.reset c) (List.replicate 5 Foo.increment)).2
        = [1, 2, 3, 4, 5] := fun _ => rfl
  have hout1 : (runSched
      (TwoActors.mk (Foo.reset c₁) (List.replicate 5 Foo.increment) []
        (Foo.reset c₂) (List.replicate 5 Foo.increment) []) sched).out1
      = [1, 2, 3, 4, 5] := by
    rw [runSched_out1]
    show [] ++ ((runMailbox (Foo.reset c₁)
      (List.replicate 5 Foo.increment)).2.take (countTrue sched)) = _
    rw [hseq c₁, List.nil_append]
    exact List.take_of_length_le (by simpa using h1)
  have hout2 : (runSched
      (TwoActors.mk (Foo.reset c₁) (List.replicate 5 Foo.increment) []
        (Foo.reset c₂) (List.replicate 5 Foo.increment) []) sched).out2
      = [1, 2, 3, 4, 5] := by
    rw [runSched_out2]
    show [] ++ ((runMailbox (Foo.reset c₂)
      (List.replicate 5 Foo.increment)).2.take (countFalse sched)) = _
    rw [hseq c₂, List.nil_append]
    exact List.take_of_length_le (by simpa using h2)
  refine ⟨fun σ₁ σ₂ β sys sch => runSched_out1 sch sys, hout1, hout2, ?_⟩
  rw [hout1, hout2]
  rfl

/-- Concrete instance of `actor_methods_serialized`: the exact alternating
schedule of the notebook exercise (f1, f2, f1, f2, …, five calls each). -/
theorem actor_methods_serialized_witness :
    (∀ (σ₁ σ₂ β : Type) (sys : TwoActors σ₁ σ₂ β) (sch : List Bool),
        (runSched sys sch).out1
          = sys.out1 ++ (runMailbox sys.s1 sys.mb1).2.take (countTrue sch)) ∧
    (runSched
        (TwoActors.mk (Foo.reset 0) (List.replicate 5 Foo.increment) []
          (Foo.reset 0) (List.replicate 5 Foo.increment) [])
        [true, false, true, false, true, false, true, false, true,
          false]).out1
      = [1, 2, 3, 4, 5] ∧
    (runSched
        (TwoActors.mk (Foo.reset 0) (List.replicate 5 Foo.increment) []
          (Foo.reset 0) (List.replicate 5 Foo.increment) [])
        [true, false, true, false, true, false, true, false, true,
          false]).out2
      = [1, 2, 3, 4, 5] ∧
    interleave
        (runSched
          (TwoActors.mk (Foo.reset 0) (List.replicate 5 Foo.increment) []
            (Foo.reset 0) (List.replicate 5 Foo.increment) [])
          [true, false, true, false, true, false, true, false, true,
            false]).out1
        (runSched
          (TwoActors.mk (Foo.reset 0) (List.replicate 5 Foo.increment) []
            (Foo.reset 0) (List.replicate 5 Foo.increment) [])
          [true, false, true, false, true, false, true, false, true,
            false]).out2
      = [1, 1, 2, 2, 3, 3, 4, 4, 5, 5] :=
  actor_methods_serialized
    [true, false, true, false, true, false, true, false, true, false] 0 0
    (by decide) (by decide)

/-- Modelled from the spec (§9 design note): an argument to a Task is a
tagged union — an immediate plain value or a Pending-Future placeholder. -/
inductive Arg (α : Type) where
  | imm (v : α)
  | fut (id : FutureId)
deriving DecidableEq, Repr

/-- Modelled from the spec (§3): a Task is a function reference plus an
argument list (arguments may themselves be Futures, establishing a
wait-dependency) plus its assigned result Future. A body that raises is
captured as `Except.error`. -/
structure Task (α ε : Type) where
  fn : List α → Except ε α
  args : List (Arg α)
  fid : FutureId

/-- Evaluate one argument against the CompletionTable: an immediate value is
already a resolved plain value; a Future argument has the state the table
records for it. -/
def resolveArg {α ε : Type} (tbl : Table α ε) : Arg α → FState α ε
  | .imm v => .resolved v
  | .fut i => tbl i

/-- Modelled from the spec (§4.1, §7b): the dependency status of an argument
list. `none` — some argument Future is still Pending and the Task is
deferred; `some (.error e)` — an argument Future has Failed and `e` is the
upstream error (DependencyError); `some (.ok vs)` — every argument is
Resolved and `vs` are the plain argument values, in argument order. -/
def depStatus {α ε : Type} (tbl : Table α ε) :
    List (Arg α) → Option (Except ε (List α))
  | [] => some (Except.ok [])
  | a :: rest =>
    match resolveArg tbl a with
    | .pending => none
    | .failed e => some (Except.error e)
    | .resolved v =>
      match depStatus tbl rest with
      | none => none
      | some (Except.error e) => some (Except.error e)
      | some (Except.ok vs) => some (Except.ok (v :: vs))

/-- Write-once update of the CompletionTable at one Future. -/
def updateTbl {α ε : Type} (tbl : Table α ε) (i : FutureId) (s : FState α ε) :
    Table α ε :=
  fun j => if j = i then s else tbl j

/-- Observable dispatch events: either the Task's body actually ran,
receiving the listed plain argument values, or the Task was failed without
running because of a failed dependency. -/
inductive Event (α ε : Type) where
  | ran (fid : FutureId) (vals : List α)
  | depFailed (fid : FutureId) (e : ε)

/-- Modelled from the spec (§4.1): attempt to execute one Task against the
current CompletionTable. A Task with a Pending argument Future is deferred
(`none`, nothing runs); a Task with a Failed argument Future is immediately
marked Failed with the upstream error, its body never running; otherwise the
body runs on the plain argument values and the result (or captured
exception) is written once into the table. -/
def execTask {α ε : Type} (tbl : Table α ε) (t : Task α ε) :
    Option (Table α ε × Event α ε) :=
  match depStatus tbl t.args with
  | none => none
  | some (Except.error e) =>
    some (updateTbl tbl t.fid (FState.failed e), Event.depFailed t.fid e)
  | some (Except.ok vs) =>
    some (updateTbl tbl t.fid
      (match t.fn vs with
       | Except.ok v => FState.resolved v
       | Except.error e => FState.failed e),
      Event.ran t.fid vs)

/-- When the dependency status delivers plain values, each argument is
Resolved and is paired with exactly its resolved value, in order. -/
theorem depStatus_ok_forall {α ε : Type} (tbl : Table α ε) :
    ∀ (args : List (Arg α)) (vs : List α),
      depStatus tbl args = some (Except.ok vs) →
      List.Forall₂ (fun a v => resolveArg tbl a = FState.resolved v) args vs := by
  intro args
  induction args with
  | nil =>
    intro vs h
    simp [depStatus] at h
    rw [h]
    exact List.Forall₂.nil
  | cons a rest ih =>
    intro vs h
    cases hra : resolveArg tbl a with
    | pending => rw [depStatus, hra] at h; exact absurd h (by simp)
    | failed e =>
      rw [depStatus, hra] at h
      simp at h
    | resolved v =>
      rw [depStatus, hra] at h
      cases hds : depStatus tbl rest with
      | none => rw [hds] at h; exact absurd h (by simp)
      | some r =>
        cases r with
        | error e => rw [hds] at h; simp at h
        | ok ws =>
          rw [hds] at h
          simp only [Option.some.injEq, Except.ok.injEq] at h
          rw [← h]
          exact List.Forall₂.cons hra (ih ws hds)

/-- If some argument Future is Pending and none has Failed, the Task is
deferred: its dependency status is `none`. -/
theorem depStatus_pending {α ε : Type} (tbl : Table α ε) :
    ∀ (args : List (Arg α)),
      (∃ a ∈ args, resolveArg tbl a = FState.pending) →
      (∀ a ∈ args, ∀ e, resolveArg tbl a ≠ FState.failed e) →
      depStatus tbl args = none := by
  intro args
  induction args with
  | nil => intro h _; simp at h
  | cons a rest ih =>
    intro hex hnf
    cases hra : resolveArg tbl a with
    | pending => rw [depStatus, hra]
    | failed e => exact absurd hra (hnf a (List.mem_cons_self a rest) e)
    | resolved v =>
      rw [depStatus, hra]
      obtain ⟨b, hb, hbp⟩ := hex
      rcases List.mem_cons.mp hb with hb | hb
      · rw [hb] at hbp; rw [hbp] at hra; exact absurd hra (by simp)
      · have : depStatus tbl rest = none :=
          ih ⟨b, hb, hbp⟩ (fun c hc e => hnf c (List.mem_cons_of_mem a hc) e)
        rw [this]

/-- A DependencyError status names an actually Failed upstream argument. -/
theorem depStatus_error_exists {α ε : Type} (tbl : Table α ε) :
    ∀ (args : List (Arg α)) (e : ε),
      depStatus tbl args = some (Except.error e) →
      ∃ a ∈ args, resolveArg tbl a = FState.failed e := by
  intro args
  induction args with
  | nil => intro e h; simp [depStatus] at h
  | cons a rest ih =>
    intro e h
    cases hra : resolveArg tbl a with
    | pending => rw [depStatus, hra] at h; exact absurd h (by simp)
    | failed e' =>
      rw [depStatus, hra] at h
      simp only [Option.some.injEq, Except.error.injEq] at h
      exact ⟨a, List.mem_cons_self a rest, by rw [hra, h]⟩
    | resolved v =>
      rw [depStatus, hra] at h
      cases hds : depStatus tbl rest with
      | none => rw [hds] at h; exact absurd h (by simp)
      | some r =>
        cases r with
        | error e' =>
          rw [hds] at h
          simp only [Option.some.injEq, Except.error.injEq] at h
          obtain ⟨b, hb, hbf⟩ := ih e' hds
          exact ⟨b, List.mem_cons_of_mem a hb, by rw [hbf, h]⟩
        | ok ws => rw [hds] at h; simp at h

/-- C4: a Task whose arguments contain unresolved (Pending) Futures — and no
Failed ones — is not executed at all; and whenever a Task's body does run,
every Future argument had been Resolved and was replaced by its resolved
value, so the body receives exactly the plain values, in argument order. -/
theorem task_dependencies_deferred {α ε : Type} (tbl : Table α ε)
    (t : Task α ε) :
    (∀ (tbl' : Table α ε) (vs : List α),
        execTask tbl t = some (tbl', Event.ran t.fid vs) →
        List.Forall₂ (fun a v => resolveArg tbl a = FState.resolved v)
          t.args vs) ∧
    ((∃ a ∈ t.args, resolveArg tbl a = FState.pending) →
      (∀ a ∈ t.args, ∀ e, resolveArg tbl a ≠ FState.failed e) →
      execTask tbl t = none) := by
  constructor
  · intro tbl' vs h
    cases hds : depStatus tbl t.args with
    | none => rw [execTask, hds] at h; exact absurd h (by simp)
    | some r =>
      cases r with
      | error e =>
        rw [execTask, hds] at h
        simp only [Option.some.injEq, Prod.mk.injEq] at h
        exact absurd h.2 (by simp)
      | ok ws =>
        rw [execTask, hds] at h
        simp only [Option.some.injEq, Prod.mk.injEq, Event.ran.injEq] at h
        rw [← h.2.2]
        exact depStatus_ok_forall tbl t.args ws hds
  · intro hex hnf
    rw [execTask, depStatus_pending tbl t.args hex hnf]

/-- Concrete instance of `task_dependencies_deferred`: a Task whose only
argument is a still-Pending Future is not executed. -/
theorem task_dependencies_deferred_witness :
    execTask (fun _ => FState.pending : Table Nat Nat)
      (Task.mk (fun _ => Except.ok 0) [Arg.fut 0] 1) = none :=
  (task_dependencies_deferred (fun _ => FState.pending : Table Nat Nat)
      (Task.mk (fun _ => Except.ok 0) [Arg.fut 0] 1)).2
    ⟨Arg.fut 0, List.mem_singleton_self _, rfl⟩
    (by
      intro a ha e
      rw [List.mem_singleton] at ha
      rw [ha]
      simp [resolveArg])

/-- Modelled from the spec (§4.4, §7): `get` on a single Future — `none`
while the Future is Pending (the caller stays blocked), the stored value once
Resolved, and the stored error re-raised once Failed. -/
def rayGetOne {α ε : Type} (tbl : Table α ε) (i : FutureId) :
    Option (Except ε α) :=
  match tbl i with
  | .pending => none
  | .resolved v => some (Except.ok v)
  | .failed e => some (Except.error e)

/-- C6: a Task that depends on a Failed Future never executes its body — no
`ran` event can be produced — and its own Future is immediately marked Failed
with the upstream error of an actually-Failed argument; the first `get` that
observes the Future surfaces exactly that stored error. -/
theorem failed_dependency_propagation {α ε : Type} (tbl : Table α ε)
    (t : Task α ε) (e : ε)
    (h : depStatus tbl t.args = some (Except.error e)) :
    (∃ a ∈ t.args, resolveArg tbl a = FState.failed e) ∧
    execTask tbl t
      = some (updateTbl tbl t.fid (FState.failed e), Event.depFailed t.fid e) ∧
    (∀ (tbl' : Table α ε) (vs : List α),
        execTask tbl t ≠ some (tbl', Event.ran t.fid vs)) ∧
    rayGetOne (updateTbl tbl t.fid (FState.failed e)) t.fid
      = some (Except.error e) := by
  refine ⟨depStatus_error_exists tbl t.args e h, ?_, ?_, ?_⟩
  · rw [execTask, h]
  · intro tbl' vs hcontra
    rw [execTask, h] at hcontra
    simp only [Option.some.injEq, Prod.mk.injEq] at hcontra
    exact absurd hcontra.2 (by simp)
  · simp [rayGetOne, updateTbl]

/-- Concrete instance of `failed_dependency_propagation`: Future 0 has Failed
with error 7; the Task computing Future 1 from it is failed without running
and `get` re-raises error 7. -/
theorem failed_dependency_propagation_witness :
    (∃ a ∈ [Arg.fut 0], resolveArg
        (fun i => if i = 0 then FState.failed 7 else FState.pending
          : Table Nat Nat) a = FState.failed 7) ∧
    execTask (fun i => if i = 0 then FState.failed 7 else FState.pending)
        (Task.mk (fun _ => Except.ok 0) [Arg.fut 0] 1)
      = some (updateTbl
          (fun i => if i = 0 then FState.failed 7 else FState.pending) 1
          (FState.failed 7), Event.depFailed 1 7) ∧
    (∀ (tbl' : Table Nat Nat) (vs : List Nat),
        execTask (fun i => if i = 0 then FState.failed 7 else FState.pending)
            (Task.mk (fun _ => Except.ok 0) [Arg.fut 0] 1)
          ≠ some (tbl', Event.ran 1 vs)) ∧
    rayGetOne (updateTbl
        (fun i => if i = 0 then FState.failed 7 else FState.pending
          : Table Nat Nat) 1
        (FState.failed 7)) 1
      = some (Except.error 7) :=
  failed_dependency_propagation
    (fun i => if i = 0 then FState.failed 7 else FState.pending)
    (Task.mk (fun _ => Except.ok 0) [Arg.fut 0] 1) 7 (by
      simp [depStatus, resolveArg])

/-- The fold that assembles `get`'s result from an all-terminal input
sequence: the stored values in input order, or the first stored error in
input order. -/
def collectResults {α ε : Type} (tbl : Table α ε) (fs : List FutureId) :
    Except ε (List α) :=
  fs.foldr
    (fun i acc =>
      match tbl i, acc with
      | FState.failed e, _ => Except.error e
      | FState.resolved v, Except.ok vs => Except.ok (v :: vs)
      | FState.resolved _, Except.error e => Except.error e
      | FState.pending, acc2 => acc2)
    (Except.ok [])

/-- Modelled from the spec (§4.4): `get` on an ordered sequence of Futures —
`none` (caller blocked) until every referenced Future is terminal, then the
stored values in input order, or the first captured error in input order if
a Failed Future is encountered. -/
def rayGetList {α ε : Type} (tbl : Table α ε) (fs : List FutureId) :
    Option (Except ε (List α)) :=
  if fs.all (fun i => (tbl i).isTerminal) then some (collectResults tbl fs)
  else none

/-- On an all-Resolved input the fold returns exactly the stored values, in
input order. -/
theorem collectResults_resolved {α ε : Type} (tbl : Table α ε)
    (value : FutureId → α) :
    ∀ (fs : List FutureId), (∀ i ∈ fs, tbl i = FState.resolved (value i)) →
      collectResults tbl fs = Except.ok (fs.map value) := by
  intro fs
  induction fs with
  | nil => intro _; rfl
  | cons i rest ih =>
    intro h
    have hi : tbl i = FState.resolved (value i) :=
      h i (List.mem_cons_self i rest)
    have hrest := ih (fun j hj => h j (List.mem_cons_of_mem i hj))
    show (match tbl i, collectResults tbl rest with
      | FState.failed e, _ => Except.error e
      | FState.resolved v, Except.ok vs => Except.ok (v :: vs)
      | FState.resolved _, Except.error e => Except.error e
      | FState.pending, acc2 => acc2) = Except.ok ((i :: rest).map value)
    rw [hi, hrest]
    rfl

/-- C5: for every sequence of N Futures, `get` stays blocked until all of
them are terminal (it returns nothing while one is Pending) and, once all
are Resolved, returns exactly N values in the same order as the input
sequence, regardless of completion order (only the stored values matter); a
single Future yields a single value. -/
theorem get_returns_input_order {α ε : Type} (tbl : Table α ε)
    (fs : List FutureId) (value : FutureId → α)
    (h : ∀ i ∈ fs, tbl i = FState.resolved (value i)) :
    rayGetList tbl fs = some (Except.ok (fs.map value)) ∧
    (fs.map value).length = fs.length ∧
    (∀ (j : FutureId) (v : α), tbl j = FState.resolved v →
        rayGetOne tbl j = some (Except.ok v)) ∧
    (∀ (tbl2 : Table α ε) (gs : List FutureId),
        (∃ i ∈ gs, tbl2 i = FState.pending) → rayGetList tbl2 gs = none) := by
  refine ⟨?_, List.length_map fs value, ?_, ?_⟩
  · have hterm : fs.all (fun i => (tbl i).isTerminal) = true := by
      rw [List.all_eq_true]
      intro i hi
      rw [h i hi]
      rfl
    rw [rayGetList, if_pos hterm, collectResults_resolved tbl value fs h]
  · intro j v hj
    rw [rayGetOne, hj]
  · intro tbl2 gs ⟨i, hi, hip⟩
    have hterm : gs.all (fun i => (tbl2 i).isTerminal) = false := by
      rw [List.all_eq_false]
      exact ⟨i, hi, by rw [hip]; simp [FState.isTerminal]⟩
    rw [rayGetList, hterm]
    rfl

/-- Concrete instance of `get_returns_input_order`: three resolved Futures
queried in the order `[2, 0, 1]` yield their values in that same order. -/
theorem get_returns_input_order_witness :
    rayGetList (fun i => FState.resolved (i * 10) : Table Nat Nat) [2, 0, 1]
      = some (Except.ok (([2, 0, 1] : List FutureId).map (fun i => i * 10))) ∧
    (([2, 0, 1] : List FutureId).map (fun i => i * 10)).length
      = ([2, 0, 1] : List FutureId).length ∧
    (∀ (j : FutureId) (v : Nat),
        (fun i => FState.resolved (i * 10) : Table Nat Nat) j
          = FState.resolved v →
        rayGetOne (fun i => FState.resolved (i * 10) : Table Nat Nat) j
          = some (Except.ok v)) ∧
    (∀ (tbl2 : Table Nat Nat) (gs : List FutureId),
        (∃ i ∈ gs, tbl2 i = FState.pending) → rayGetList tbl2 gs = none) :=
  get_returns_input_order (fun i => FState.resolved (i * 10)) [2, 0, 1]
    (fun i => i * 10) (fun _ _ => rfl)

/-- Modelled from the spec (§4.1, §5): dispatcher state — the next fresh
Future identifier, the CompletionTable, and the queue of submitted Tasks not
yet executed. -/
structure DispatcherState (α ε : Type) where
  nextId : FutureId
  table : Table α ε
  queue : List (Task α ε)

/-- Modelled from the spec (§4.1, §5): `submit(fn, args)` allocates a fresh
Pending Future, enqueues the Task, and hands the Future straight back to the
caller; nothing is executed and nothing is awaited during submission. -/
def submit {α ε : Type} (st : DispatcherState α ε) (fn : List α → Except ε α)
    (args : List (Arg α)) : DispatcherState α ε × FutureId :=
  ({ nextId := st.nextId + 1,
     table := updateTbl st.table st.nextId FState.pending,
     queue := st.queue ++ [Task.mk fn args st.nextId] }, st.nextId)

/-- Modelled from the spec (§4.2): an actor method `call` only appends the
method to the actor's mailbox; no method body runs during the call. -/
def callEnqueue {σ₁ σ₂ α : Type} (sys : TwoActors σ₁ σ₂ α)
    (m : σ₁ → σ₁ × α) : TwoActors σ₁ σ₂ α :=
  { sys with mb1 := sys.mb1 ++ [m] }

/-- C7: every `submit` and every actor-method `call` returns a Future to the
caller immediately without blocking: `submit` hands back a fresh Future that
is still Pending, changes no other table entry, and merely enqueues the Task
(neither the submitted function nor any dependency is executed or resolved);
`call` merely appends to the mailbox, leaving the actor's state and results
untouched. -/
theorem submission_never_blocks {α ε σ₁ σ₂ β : Type}
    (st : DispatcherState α ε) (fn : List α → Except ε α)
    (args : List (Arg α)) (sys : TwoActors σ₁ σ₂ β) (m : σ₁ → σ₁ × β) :
    (submit st fn args).2 = st.nextId ∧
    (submit st fn args).1.table st.nextId = FState.pending ∧
    (∀ j, j ≠ st.nextId → (submit st fn args).1.table j = st.table j) ∧
    (submit st fn args).1.queue = st.queue ++ [Task.mk fn args st.nextId] ∧
    (callEnqueue sys m).out1 = sys.out1 ∧
    (callEnqueue sys m).s1 = sys.s1 ∧
    (callEnqueue sys m).mb1 = sys.mb1 ++ [m] := by
  refine ⟨rfl, ?_, ?_, rfl, rfl, rfl, rfl⟩
  · simp [submit, updateTbl]
  · intro j hj
    simp [submit, updateTbl, hj]

/-- Concrete instance of `submission_never_blocks`: submitting to a fresh
dispatcher and calling an increment method on an idle actor. -/
theorem submission_never_blocks_witness :
    (submit (DispatcherState.mk 0 (fun _ => FState.pending : Table Nat Nat)
        []) (fun _ => Except.ok 4) [Arg.imm 4]).2
      = (DispatcherState.mk 0 (fun _ => FState.pending : Table Nat Nat)
          []).nextId ∧
    (submit (DispatcherState.mk 0 (fun _ => FState.pending : Table Nat Nat)
        []) (fun _ => Except.ok 4) [Arg.imm 4]).1.table
        (DispatcherState.mk 0 (fun _ => FState.pending : Table Nat Nat)
          []).nextId
      = FState.pending ∧
    (∀ j, j ≠ (DispatcherState.mk 0
          (fun _ => FState.pending : Table Nat Nat) []).nextId →
        (submit (DispatcherState.mk 0
            (fun _ => FState.pending : Table Nat Nat) [])
          (fun _ => Except.ok 4) [Arg.imm 4]).1.table j
          = (DispatcherState.mk 0
              (fun _ => FState.pending : Table Nat Nat) []).table j) ∧
    (submit (DispatcherState.mk 0 (fun _ => FState.pending : Table Nat Nat)
        []) (fun _ => Except.ok 4) [Arg.imm 4]).1.queue
      = [] ++ [Task.mk (fun _ => Except.ok 4) [Arg.imm 4] 0] ∧
    (callEnqueue (TwoActors.mk 0 [] ([] : List Nat) 0 [] [])
        Foo.increment).out1
      = [] ∧
    (callEnqueue (TwoActors.mk 0 [] ([] : List Nat) 0 [] [])
        Foo.increment).s1
      = 0 ∧
    (callEnqueue (TwoActors.mk 0 [] ([] : List Nat) 0 [] [])
        Foo.increment).mb1
      = [] ++ [Foo.increment] :=
  submission_never_blocks
    (DispatcherState.mk 0 (fun _ => FState.pending) [])
    (fun _ => Except.ok 4) [Arg.imm 4]
    (TwoActors.mk 0 [] [] 0 [] []) Foo.increment

/-- Modelled from the spec (§4.1 side effect): a store of mutable slots,
indexed by location. The caller's copy of an argument and the worker's copy
live at distinct locations. -/
abbrev Store (α : Type) := Nat → α

/-- Write one slot of the store. -/
def writeStore {α : Type} (h : Store α) (a : Nat) (v : α) : Store α :=
  fun j => if j = a then v else h j

/-- Modelled from the spec (§4.1): arguments are passed with by-value
semantics — the caller's argument is copied/serialized into the worker's own
slot at submission. -/
def passArgByValue {α : Type} (h : Store α) (callerLoc workerLoc : Nat) :
    Store α :=
  writeStore h workerLoc (h callerLoc)

/-- A worker-side execution that mutates its own slot arbitrarily many
times. -/
def applyWrites {α : Type} (h : Store α) (loc : Nat) : List α → Store α
  | [] => h
  | v :: vs => applyWrites (writeStore h loc v) loc vs

/-- Writes to one slot never change a different slot. -/
theorem applyWrites_other {α : Type} (loc j : Nat) (hne : j ≠ loc) :
    ∀ (writes : List α) (h : Store α), applyWrites h loc writes j = h j := by
  intro writes
  induction writes with
  | nil => intro h; rfl
  | cons v vs ih =>
    intro h
    show applyWrites (writeStore h loc v) loc vs j = h j
    rw [ih (writeStore h loc v)]
    simp [writeStore, hne]

/-- C9: for every submitted Task and every argument, the argument travels by
value — the worker starts from a copy of the caller's argument in its own
slot, and no sequence of worker-side mutations of that slot ever changes the
caller's copy. -/
theorem arguments_passed_by_value {α : Type} (h : Store α)
    (callerLoc workerLoc : Nat) (hne : workerLoc ≠ callerLoc)
    (writes : List α) :
    passArgByValue h callerLoc workerLoc workerLoc = h callerLoc ∧
    applyWrites (passArgByValue h callerLoc workerLoc) workerLoc writes
        callerLoc
      = h callerLoc := by
  constructor
  · simp [passArgByValue, writeStore]
  · rw [applyWrites_other workerLoc callerLoc (fun he => hne he.symm)]
    simp [passArgByValue, writeStore]

/-- Concrete instance of `arguments_passed_by_value`: the worker owns slot 1,
the caller slot 0, and two worker-side overwrites leave slot 0 intact. -/
theorem arguments_passed_by_value_witness :
    passArgByValue (fun i => i : Store Nat) 0 1 1 = (fun i => i : Store Nat) 0 ∧
    applyWrites (passArgByValue (fun i => i : Store Nat) 0 1) 1 [42, 7] 0
      = (fun i => i : Store Nat) 0 :=
  arguments_passed_by_value (fun i => i) 0 1 (by decide) [42, 7]

/-- Translated from the notebook source (colab04-05, `LoggingActor`): the
actor's state is `self.logs`, a defaultdict from experiment index to the
list of messages logged so far (missing indices default to the empty
list). -/
abbrev Logs := Nat → List String

/-- Translated from source: `__init__` starts with an empty defaultdict. -/
def LoggingActor.init : Logs := fun _ => []

/-- Translated from source: `log(index, message)` appends `message` to
`self.logs[index]`. -/
def LoggingActor.log (logs : Logs) (index : Nat) (message : String) : Logs :=
  fun i => if i = index then logs i ++ [message] else logs i

/-- Translated from source: `get_logs` returns `dict(self.logs)` — a copy of
the mapping, not the actor's own dict; through the runtime the copy reaches
the caller by value. -/
def LoggingActor.get_logs (logs : Logs) : Logs := fun i => logs i

/-- Modelled from the spec (§4.1, §4.4): the result of a `get_logs` call is
written into the caller's own slot; the actor's state stays in the actor's
slot. -/
def getLogsCopy (h : Store Logs) (actorLoc callerLoc : Nat) : Store Logs :=
  writeStore h callerLoc (LoggingActor.get_logs (h actorLoc))

/-- C10: `LoggingActor.get_logs` hands the caller a copy of the actor's logs
mapping — the caller's slot receives a value equal to the actor's mapping
and any sequence of caller-side mutations of that slot leaves the actor's
state unchanged — and `LoggingActor.log` only appends to the list at the
given index, never removing or overwriting previously logged messages and
never touching other indices. -/
theorem loggingActor_copy_and_append_only (h : Store Logs)
    (actorLoc callerLoc : Nat) (hne : callerLoc ≠ actorLoc)
    (writes : List Logs) (logs : Logs) (index : Nat) (message : String) :
    getLogsCopy h actorLoc callerLoc callerLoc
      = LoggingActor.get_logs (h actorLoc) ∧
    applyWrites (getLogsCopy h actorLoc callerLoc) callerLoc writes actorLoc
      = h actorLoc ∧
    (∀ i, ∃ t, LoggingActor.log logs index message i = logs i ++ t) ∧
    LoggingActor.log logs index message index = logs index ++ [message] ∧
    (∀ i, i ≠ index → LoggingActor.log logs index message i = logs i) := by
  refine ⟨?_, ?_, ?_, ?_, ?_⟩
  · simp [getLogsCopy, writeStore]
  · rw [applyWrites_other callerLoc actorLoc (fun he => hne he.symm)]
    simp only [getLogsCopy, writeStore]
    rw [if_neg (fun he => hne he.symm)]
  · intro i
    by_cases hi : i = index
    · exact ⟨[message], by simp [LoggingActor.log, hi]⟩
    · exact ⟨[], by simp [LoggingActor.log, hi]⟩
  · simp [LoggingActor.log]
  · intro i hi
    simp [LoggingActor.log, hi]

/-- Concrete instance of `loggingActor_copy_and_append_only`: the actor lives
in slot 0, the caller's copy in slot 1, the caller overwrites its copy, and
one message is logged at index 3. -/
theorem loggingActor_copy_and_append_only_witness :
    getLogsCopy (fun _ => LoggingActor.init : Store Logs) 0 1 1
      = LoggingActor.get_logs
          ((fun _ => LoggingActor.init : Store Logs) 0) ∧
    applyWrites (getLogsCopy (fun _ => LoggingActor.init : Store Logs) 0 1) 1
        [fun _ => ["tampered"]] 0
      = (fun _ => LoggingActor.init : Store Logs) 0 ∧
    (∀ i, ∃ t, LoggingActor.log LoggingActor.init 3 "On iteration 0" i
        = LoggingActor.init i ++ t) ∧
    LoggingActor.log LoggingActor.init 3 "On iteration 0" 3
      = LoggingActor.init 3 ++ ["On iteration 0"] ∧
    (∀ i, i ≠ 3 → LoggingActor.log LoggingActor.init 3 "On iteration 0" i
        = LoggingActor.init i) :=
  loggingActor_copy_and_append_only (fun _ => LoggingActor.init) 0 1
    (by decide) [fun _ => ["tampered"]] LoggingActor.init 3 "On iteration 0"

end Tutorial
